import Mathlib

/-!
A shallow embedding of the geometric hydrogen-reconstruction engine and the
order-parameter accumulation protocol of the buildH program
(files `src/buildH_calcOP.py` and `src/geometry.py`), together with theorems
settling the specification claims.

The Python code computes with IEEE doubles on numpy arrays; the embedding uses
exact real arithmetic over a 3-component vector type.  Division by zero follows
Mathlib's convention `x / 0 = 0`; numpy instead silently produces `nan`/`inf`
without raising an exception, which is noted at the definitions where this
matters (degenerate geometry).
-/

namespace BuildH

/-- A coordinate vector, `np.array((x, y, z))`. -/
@[ext]
structure Vec3 where
  x : ℝ
  y : ℝ
  z : ℝ

instance : Zero Vec3 :=
  ⟨⟨0, 0, 0⟩⟩

instance : Add Vec3 :=
  ⟨fun a b => ⟨a.x + b.x, a.y + b.y, a.z + b.z⟩⟩

instance : Sub Vec3 :=
  ⟨fun a b => ⟨a.x - b.x, a.y - b.y, a.z - b.z⟩⟩

instance : Neg Vec3 :=
  ⟨fun a => ⟨-a.x, -a.y, -a.z⟩⟩

instance : SMul ℝ Vec3 :=
  ⟨fun c a => ⟨c * a.x, c * a.y, c * a.z⟩⟩

@[simp] theorem zero_x : (0 : Vec3).x = 0 := rfl

@[simp] theorem zero_y : (0 : Vec3).y = 0 := rfl

@[simp] theorem zero_z : (0 : Vec3).z = 0 := rfl

@[simp] theorem add_x (a b : Vec3) : (a + b).x = a.x + b.x := rfl

@[simp] theorem add_y (a b : Vec3) : (a + b).y = a.y + b.y := rfl

@[simp] theorem add_z (a b : Vec3) : (a + b).z = a.z + b.z := rfl

@[simp] theorem sub_x (a b : Vec3) : (a - b).x = a.x - b.x := rfl

@[simp] theorem sub_y (a b : Vec3) : (a - b).y = a.y - b.y := rfl

@[simp] theorem sub_z (a b : Vec3) : (a - b).z = a.z - b.z := rfl

@[simp] theorem neg_x (a : Vec3) : (-a).x = -a.x := rfl

@[simp] theorem neg_y (a : Vec3) : (-a).y = -a.y := rfl

@[simp] theorem neg_z (a : Vec3) : (-a).z = -a.z := rfl

@[simp] theorem smul_x (c : ℝ) (a : Vec3) : (c • a).x = c * a.x := rfl

@[simp] theorem smul_y (c : ℝ) (a : Vec3) : (c • a).y = c * a.y := rfl

@[simp] theorem smul_z (c : ℝ) (a : Vec3) : (c • a).z = c * a.z := rfl

theorem sub_eq_zero_vec {a b : Vec3} : a - b = 0 ↔ a = b := by
  simp [Vec3.ext_iff, sub_eq_zero]

theorem sub_self_vec (a : Vec3) : a - a = 0 := by
  ext <;> simp

theorem add_sub_cancel_vec (a b : Vec3) : (a + b) - b = a := by
  ext <;> simp

/-- `np.dot` on 3-vectors. -/
def dot (a b : Vec3) : ℝ :=
  a.x * b.x + a.y * b.y + a.z * b.z

@[simp] theorem dot_zero_left (a : Vec3) : dot 0 a = 0 := by
  simp [dot]

@[simp] theorem dot_zero_right (a : Vec3) : dot a 0 = 0 := by
  simp [dot]

theorem dot_self_nonneg (v : Vec3) : 0 ≤ dot v v := by
  simp only [dot]
  nlinarith [mul_self_nonneg v.x, mul_self_nonneg v.y, mul_self_nonneg v.z]

theorem dot_self_eq_zero_iff {v : Vec3} : dot v v = 0 ↔ v = 0 := by
  constructor
  · intro h
    simp only [dot] at h
    have hx : v.x * v.x = 0 :=
      le_antisymm (by nlinarith [mul_self_nonneg v.y, mul_self_nonneg v.z]) (mul_self_nonneg v.x)
    have hy : v.y * v.y = 0 :=
      le_antisymm (by nlinarith [mul_self_nonneg v.x, mul_self_nonneg v.z]) (mul_self_nonneg v.y)
    have hz : v.z * v.z = 0 :=
      le_antisymm (by nlinarith [mul_self_nonneg v.x, mul_self_nonneg v.y]) (mul_self_nonneg v.z)
    ext <;> simpa using mul_self_eq_zero.mp (by assumption)
  · intro h
    subst h
    simp

theorem dot_self_pos {v : Vec3} (hv : v ≠ 0) : 0 < dot v v :=
  (dot_self_nonneg v).lt_of_ne (fun h => hv (dot_self_eq_zero_iff.mp h.symm))

theorem dot_smul_left (c : ℝ) (a b : Vec3) : dot (c • a) b = c * dot a b := by
  simp [dot]; ring

theorem dot_smul_smul (c d : ℝ) (a b : Vec3) : dot (c • a) (d • b) = (c * d) * dot a b := by
  simp [dot]; ring

theorem dot_sub_right (a b c : Vec3) : dot a (b - c) = dot a b - dot a c := by
  simp [dot]; ring

/-- `norm(vec)`: the function `norm` of the source, `np.sqrt(np.sum(vec**2))`. -/
noncomputable def norm (v : Vec3) : ℝ :=
  Real.sqrt (dot v v)

theorem norm_nonneg' (v : Vec3) : 0 ≤ norm v :=
  Real.sqrt_nonneg _

@[simp] theorem norm_zero' : norm 0 = 0 := by
  simp [norm]

theorem norm_eq_zero_iff {v : Vec3} : norm v = 0 ↔ v = 0 := by
  rw [norm, Real.sqrt_eq_zero (dot_self_nonneg v), dot_self_eq_zero_iff]

theorem norm_pos' {v : Vec3} (hv : v ≠ 0) : 0 < norm v :=
  (norm_nonneg' v).lt_of_ne (fun h => hv (norm_eq_zero_iff.mp h.symm))

theorem norm_mul_self (v : Vec3) : norm v * norm v = dot v v :=
  Real.mul_self_sqrt (dot_self_nonneg v)

theorem norm_smul_vec (c : ℝ) (v : Vec3) : norm (c • v) = |c| * norm v := by
  rw [norm, dot_smul_smul, show c * c * dot v v = c ^ 2 * dot v v by ring,
    Real.sqrt_mul (sq_nonneg c), Real.sqrt_sq_eq_abs, norm]

theorem norm_one_of_unit {v : Vec3} (hv : dot v v = 1) : norm v = 1 := by
  rw [norm, hv, Real.sqrt_one]

/-- `normalize(vec)`: `vec / norm(vec)` (numpy broadcasts the division over the
three components).  On the zero vector the source divides by zero: numpy emits
`nan` components without raising; in the embedding each component is `0 / 0 = 0`. -/
noncomputable def normalize (v : Vec3) : Vec3 :=
  ⟨v.x / norm v, v.y / norm v, v.z / norm v⟩

@[simp] theorem normalize_zero : normalize 0 = 0 := by
  ext <;> simp [normalize]

theorem normalize_eq_smul (v : Vec3) : normalize v = (norm v)⁻¹ • v := by
  ext <;> simp [normalize, div_eq_inv_mul]

theorem dot_normalize_self {v : Vec3} (hv : v ≠ 0) :
    dot (normalize v) (normalize v) = 1 := by
  rw [normalize_eq_smul, dot_smul_smul, ← norm_mul_self]
  have h := (norm_pos' hv).ne'
  field_simp

theorem normalize_ne_zero {v : Vec3} (hv : v ≠ 0) : normalize v ≠ 0 := by
  intro h0
  have h1 := dot_normalize_self hv
  rw [h0] at h1
  simp at h1

theorem norm_normalize {v : Vec3} (hv : v ≠ 0) : norm (normalize v) = 1 :=
  norm_one_of_unit (dot_normalize_self hv)

theorem normalize_of_unit {v : Vec3} (hv : dot v v = 1) : normalize v = v := by
  have h : norm v = 1 := norm_one_of_unit hv
  ext <;> simp [normalize, h]

theorem normalize_smul_of_pos {c : ℝ} (hc : 0 < c) (v : Vec3) :
    normalize (c • v) = normalize v := by
  ext <;> simp [normalize, norm_smul_vec, abs_of_pos hc] <;>
    rw [mul_div_mul_left _ _ (ne_of_gt hc)]

theorem smul_eq_zero_vec {c : ℝ} {v : Vec3} : c • v = 0 ↔ c = 0 ∨ v = 0 := by
  simp [Vec3.ext_iff, mul_eq_zero]
  tauto

theorem smul_ne_zero_vec {c : ℝ} {v : Vec3} (hc : c ≠ 0) (hv : v ≠ 0) : c • v ≠ 0 := by
  rw [Ne, smul_eq_zero_vec]
  tauto

/-- `cross_product(A, B)` exactly as written in the source: the second raw
component `y = A[0]*B[2] - A[2]*B[0]` is negated in the returned array
`np.array((x, -y, z))`. -/
def cross_product (A B : Vec3) : Vec3 :=
  ⟨A.y * B.z - A.z * B.y, -(A.x * B.z - A.z * B.x), A.x * B.y - A.y * B.x⟩

theorem cross_self (v : Vec3) : cross_product v v = 0 := by
  ext <;> simp [cross_product] <;> ring

@[simp] theorem cross_zero_left (v : Vec3) : cross_product 0 v = 0 := by
  ext <;> simp [cross_product]

@[simp] theorem cross_zero_right (v : Vec3) : cross_product v 0 = 0 := by
  ext <;> simp [cross_product]

theorem cross_smul_smul (c d : ℝ) (a b : Vec3) :
    cross_product (c • a) (d • b) = (c * d) • cross_product a b := by
  ext <;> simp [cross_product] <;> ring

theorem dot_cross_left (a b : Vec3) : dot (cross_product a b) a = 0 := by
  simp [dot, cross_product]; ring

theorem dot_cross_right (a b : Vec3) : dot (cross_product a b) b = 0 := by
  simp [dot, cross_product]; ring

theorem dot_cross_self (a b : Vec3) : dot a (cross_product a b) = 0 := by
  simp [dot, cross_product]; ring

theorem dot_cross_cross (a b : Vec3) :
    dot (cross_product a b) (cross_product a b) = dot a a * dot b b - dot a b ^ 2 := by
  simp [dot, cross_product]; ring

/-- CLAIM C7 — `cross_product(A, B)` equals the mathematical cross product
`A × B` component for component: the built-in `-y` twist exactly compensates
the sign-flipped raw second component, so no sign is silently permuted. -/
theorem cross_product_spec (A B : Vec3) :
    cross_product A B =
      ⟨A.y * B.z - A.z * B.y, A.z * B.x - A.x * B.z, A.x * B.y - A.y * B.x⟩ := by
  ext <;> simp [cross_product, neg_sub]

/-- `calc_OP(C, H)`: the order parameter `0.5*(3*cos2 - 1)` with
`cos2 = vec[2]**2 / np.square(vec).sum()` for `vec = H - C`. -/
noncomputable def calc_OP (C H : Vec3) : ℝ :=
  let vec := H - C
  let d2 := vec.x ^ 2 + vec.y ^ 2 + vec.z ^ 2
  let cos2 := vec.z ^ 2 / d2
  0.5 * (3.0 * cos2 - 1.0)

/-- CLAIM C3 — `calc_OP` returns `0.5*(3*(Δz)²/|H−C|² − 1)`; it is exactly `1`
when `H − C` points along `+z`, exactly `−0.5` when `Δz = 0`, and always lies
in `[−0.5, 1]` (for `H ≠ C`). -/
theorem calc_OP_spec (C H : Vec3) (hne : H ≠ C) :
    calc_OP C H =
      0.5 * (3 * ((H.z - C.z) ^ 2 /
        ((H.x - C.x) ^ 2 + (H.y - C.y) ^ 2 + (H.z - C.z) ^ 2)) - 1) ∧
    (H.x = C.x → H.y = C.y → C.z < H.z → calc_OP C H = 1) ∧
    (H.z = C.z → calc_OP C H = -0.5) ∧
    (-0.5 ≤ calc_OP C H ∧ calc_OP C H ≤ 1) := by
  have hd : H - C ≠ 0 := fun h => hne (sub_eq_zero_vec.mp h)
  have hd2 : 0 < (H.z - C.z) ^ 2 + ((H.x - C.x) ^ 2 + (H.y - C.y) ^ 2) := by
    have := dot_self_pos hd
    simp only [dot, sub_x, sub_y, sub_z] at this
    nlinarith
  refine ⟨by simp only [calc_OP, sub_x, sub_y, sub_z]; norm_num, ?_, ?_, ?_⟩
  · intro hx hy hz
    have hzz : H.z - C.z ≠ 0 := sub_ne_zero.mpr (ne_of_gt hz)
    simp only [calc_OP, sub_x, sub_y, sub_z, hx, hy, sub_self]
    rw [show (0:ℝ) ^ 2 + (0:ℝ) ^ 2 + (H.z - C.z) ^ 2 = (H.z - C.z) ^ 2 by ring,
      div_self (pow_ne_zero 2 hzz)]
    norm_num
  · intro hz
    simp only [calc_OP, sub_x, sub_y, sub_z, hz, sub_self]
    norm_num
  · have hc0 : 0 ≤ (H.z - C.z) ^ 2 /
        ((H.x - C.x) ^ 2 + (H.y - C.y) ^ 2 + (H.z - C.z) ^ 2) := by
      apply div_nonneg (sq_nonneg _)
      nlinarith
    have hc1 : (H.z - C.z) ^ 2 /
        ((H.x - C.x) ^ 2 + (H.y - C.y) ^ 2 + (H.z - C.z) ^ 2) ≤ 1 := by
      rw [div_le_one (by nlinarith)]
      nlinarith [sq_nonneg (H.x - C.x), sq_nonneg (H.y - C.y)]
    constructor <;> simp only [calc_OP, sub_x, sub_y, sub_z] <;> nlinarith

/-- Witness for C3 at the concrete input `C = (0,0,0)`, `H = (0,0,2)`. -/
theorem calc_OP_spec_witness :
    ((⟨0, 0, 2⟩ : Vec3) ≠ ⟨0, 0, 0⟩) ∧
    ((⟨0, 0, 2⟩ : Vec3).x = (⟨0, 0, 0⟩ : Vec3).x → (⟨0, 0, 2⟩ : Vec3).y = (⟨0, 0, 0⟩ : Vec3).y →
      (⟨0, 0, 0⟩ : Vec3).z < (⟨0, 0, 2⟩ : Vec3).z →
      calc_OP ⟨0, 0, 0⟩ ⟨0, 0, 2⟩ = 1) ∧
    (-0.5 ≤ calc_OP ⟨0, 0, 0⟩ ⟨0, 0, 2⟩ ∧ calc_OP ⟨0, 0, 0⟩ ⟨0, 0, 2⟩ ≤ 1) := by
  have hne : (⟨0, 0, 2⟩ : Vec3) ≠ ⟨0, 0, 0⟩ := by
    simp [Vec3.ext_iff]
  exact ⟨hne, (calc_OP_spec ⟨0, 0, 0⟩ ⟨0, 0, 2⟩ hne).2.1,
    (calc_OP_spec ⟨0, 0, 0⟩ ⟨0, 0, 2⟩ hne).2.2.2⟩

@[simp] theorem smul_zero_vec (c : ℝ) : c • (0 : Vec3) = 0 := by
  ext <;> simp

@[simp] theorem one_smul_vec (a : Vec3) : (1 : ℝ) • a = a := by
  ext <;> simp

@[simp] theorem zero_add_vec (a : Vec3) : 0 + a = a := by
  ext <;> simp

@[simp] theorem add_zero_vec (a : Vec3) : a + 0 = a := by
  ext <;> simp

/-- `calc_angle(atom1, atom2, atom3)`: valence angle at `atom2` via
`arccos(dot/(|v1||v2|))`; raises `ValueError` when the computed cosine falls
outside `[-1, 1]`. -/
noncomputable def calc_angle (atom1 atom2 atom3 : Vec3) : Except String ℝ :=
  let vec1 := atom1 - atom2
  let vec2 := atom3 - atom2
  let costheta := dot vec1 vec2 / (norm vec1 * norm vec2)
  if costheta > 1.0 ∨ costheta < -1.0 then
    Except.error ("Cosine cannot be larger than 1.0 or less than -1.0")
  else
    Except.ok (Real.arccos costheta)

/-- A quaternion `np.array([w, x, y, z])`. -/
@[ext]
structure Quat where
  w : ℝ
  x : ℝ
  y : ℝ
  z : ℝ

/-- `vec2quaternion(vec, theta)`: `w = cos(theta/2)`,
`(x, y, z) = sin(theta/2) * normalize(vec)`. -/
noncomputable def vec2quaternion (vec : Vec3) (theta : ℝ) : Quat :=
  ⟨Real.cos (theta / 2), Real.sin (theta / 2) * (normalize vec).x,
   Real.sin (theta / 2) * (normalize vec).y, Real.sin (theta / 2) * (normalize vec).z⟩

/-- `calc_rotation_matrix(quaternion)`: the three rows of the 3×3 rotation
matrix, entry for entry as filled in by the source. -/
def calc_rotation_matrix (q : Quat) : Vec3 × Vec3 × Vec3 :=
  (⟨q.w ^ 2 + q.x ^ 2 - q.y ^ 2 - q.z ^ 2, 2 * (q.x * q.y - q.w * q.z),
      2 * (q.x * q.z + q.w * q.y)⟩,
   ⟨2 * (q.x * q.y + q.w * q.z), q.w ^ 2 - q.x ^ 2 + q.y ^ 2 - q.z ^ 2,
      2 * (q.y * q.z - q.w * q.x)⟩,
   ⟨2 * (q.x * q.z - q.w * q.y), 2 * (q.y * q.z + q.w * q.x),
      q.w ^ 2 - q.x ^ 2 - q.y ^ 2 + q.z ^ 2⟩)

/-- `np.dot(rotation_matrix, vec_to_rotate)`: rows dotted with the vector. -/
def matvec (M : Vec3 × Vec3 × Vec3) (v : Vec3) : Vec3 :=
  ⟨dot M.1 v, dot M.2.1 v, dot M.2.2 v⟩

/-- `apply_rotation(vec_to_rotate, rotation_axis, rad_angle)`: quaternion →
rotation matrix → matrix product → `normalize` of the result. -/
noncomputable def apply_rotation (vec_to_rotate rotation_axis : Vec3) (rad_angle : ℝ) : Vec3 :=
  normalize (matvec (calc_rotation_matrix (vec2quaternion rotation_axis rad_angle)) vec_to_rotate)

/-- Squared norm `w² + x² + y² + z²` of a quaternion. -/
def qnorm2 (q : Quat) : ℝ :=
  q.w ^ 2 + q.x ^ 2 + q.y ^ 2 + q.z ^ 2

/-- Quaternion conjugate. -/
def qconj (q : Quat) : Quat :=
  ⟨q.w, -q.x, -q.y, -q.z⟩

/-- Quaternion square `q * q` under quaternion multiplication. -/
def qsq (q : Quat) : Quat :=
  ⟨q.w ^ 2 - q.x ^ 2 - q.y ^ 2 - q.z ^ 2, 2 * q.w * q.x, 2 * q.w * q.y, 2 * q.w * q.z⟩

theorem matvec_zero (M : Vec3 × Vec3 × Vec3) : matvec M 0 = 0 := by
  ext <;> simp [matvec]

theorem matvec_smul (M : Vec3 × Vec3 × Vec3) (c : ℝ) (v : Vec3) :
    matvec M (c • v) = c • matvec M v := by
  ext <;> simp [matvec, dot] <;> ring

/-- The homogeneous rotation matrix scales all dot products by `‖q‖⁴`
(a polynomial identity, no hypotheses). -/
theorem rot_dot_rot (q : Quat) (u v : Vec3) :
    dot (matvec (calc_rotation_matrix q) u) (matvec (calc_rotation_matrix q) v) =
      qnorm2 q ^ 2 * dot u v := by
  simp only [matvec, calc_rotation_matrix, dot, qnorm2]
  ring

/-- The conjugate matrix inverts the rotation up to the factor `‖q‖⁴`
(a polynomial identity, no hypotheses). -/
theorem rot_conj_rot (q : Quat) (v : Vec3) :
    matvec (calc_rotation_matrix (qconj q)) (matvec (calc_rotation_matrix q) v) =
      (qnorm2 q ^ 2) • v := by
  ext <;> simp only [matvec, calc_rotation_matrix, dot, qconj, qnorm2, smul_x, smul_y, smul_z] <;>
    ring

/-- `⟨R(q̄)v, R(q)v⟩ = ⟨v, R(q²)v⟩` (transpose plus multiplicativity of the
quaternion-to-matrix map; a polynomial identity, no hypotheses). -/
theorem rot_conj_dot_rot (q : Quat) (v : Vec3) :
    dot (matvec (calc_rotation_matrix (qconj q)) v) (matvec (calc_rotation_matrix q) v) =
      dot v (matvec (calc_rotation_matrix (qsq q)) v) := by
  simp only [matvec, calc_rotation_matrix, dot, qconj, qsq]
  ring

/-- `⟨v, R(q)v⟩` in closed form (a polynomial identity, no hypotheses). -/
theorem dot_self_rot (q : Quat) (v : Vec3) :
    dot v (matvec (calc_rotation_matrix q) v) =
      (q.w ^ 2 - q.x ^ 2 - q.y ^ 2 - q.z ^ 2) * dot v v +
        2 * (q.x * v.x + q.y * v.y + q.z * v.z) ^ 2 := by
  simp only [matvec, calc_rotation_matrix, dot]
  ring

/-- `vec2quaternion` of a non-zero axis is a unit quaternion. -/
theorem qnorm2_vec2quaternion {axis : Vec3} (ha : axis ≠ 0) (θ : ℝ) :
    qnorm2 (vec2quaternion axis θ) = 1 := by
  have hn := dot_normalize_self ha
  simp only [dot] at hn
  simp only [qnorm2, vec2quaternion]
  linear_combination (Real.sin (θ / 2)) ^ 2 * hn + Real.sin_sq_add_cos_sq (θ / 2)

/-- Negating the angle conjugates the quaternion. -/
theorem vec2quaternion_neg (axis : Vec3) (θ : ℝ) :
    vec2quaternion axis (-θ) = qconj (vec2quaternion axis θ) := by
  ext <;> simp [vec2quaternion, qconj, neg_div]

/-- Rotation by a unit quaternion preserves dot products. -/
theorem dot_rot_self {q : Quat} (hq : qnorm2 q = 1) (v : Vec3) :
    dot (matvec (calc_rotation_matrix q) v) (matvec (calc_rotation_matrix q) v) = dot v v := by
  rw [rot_dot_rot, hq]
  ring

theorem matvec_rot_ne_zero {v axis : Vec3} (hv : v ≠ 0) (ha : axis ≠ 0) (θ : ℝ) :
    matvec (calc_rotation_matrix (vec2quaternion axis θ)) v ≠ 0 := by
  intro h0
  have hpres := dot_rot_self (qnorm2_vec2quaternion ha θ) v
  rw [h0] at hpres
  exact hv (dot_self_eq_zero_iff.mp (by simpa using hpres.symm))

/-- The unit vector returned by `apply_rotation` on non-degenerate input. -/
theorem norm_apply_rotation {v axis : Vec3} (hv : v ≠ 0) (ha : axis ≠ 0) (θ : ℝ) :
    norm (apply_rotation v axis θ) = 1 :=
  norm_normalize (matvec_rot_ne_zero hv ha θ)

/-- `LENGTH_CH_BOND = 1.09` (Å). -/
def LENGTH_CH_BOND : ℝ := 1.09

/-- `TETRAHEDRAL_ANGLE = np.arccos(-1/3)`. -/
noncomputable def TETRAHEDRAL_ANGLE : ℝ := Real.arccos (-(1 / 3))

/-- `get_CH2(atom, helper1, helper2)`: the two hydrogens of a methylene
group, H1 from the `-TETRAHEDRAL_ANGLE/2` rotation, then H2 from the
`+TETRAHEDRAL_ANGLE/2` rotation. -/
noncomputable def get_CH2 (atom helper1 helper2 : Vec3) : Vec3 × Vec3 :=
  let v2 := normalize (helper1 - atom)
  let v3 := normalize (helper2 - atom)
  let v4 := normalize (cross_product v3 v2)
  let rotation_axis := normalize (v2 - v3)
  let vec_to_rotate := normalize (cross_product v4 rotation_axis)
  let unit_vect_H1 := apply_rotation vec_to_rotate rotation_axis (-TETRAHEDRAL_ANGLE / 2)
  let hcoor_H1 := LENGTH_CH_BOND • unit_vect_H1 + atom
  let unit_vect_H2 := apply_rotation vec_to_rotate rotation_axis (TETRAHEDRAL_ANGLE / 2)
  let hcoor_H2 := LENGTH_CH_BOND • unit_vect_H2 + atom
  (hcoor_H1, hcoor_H2)

/-- `get_CH(atom, helper1, helper2, helper3)`: the single hydrogen of an sp3
carbon, opposite to the mean of the three unit atom→helper vectors. -/
noncomputable def get_CH (atom helper1 helper2 helper3 : Vec3) : Vec3 :=
  let v2 := normalize (helper1 - atom) + normalize (helper2 - atom) + normalize (helper3 - atom)
  let v2b := ((1 : ℝ) / 3) • v2 + atom
  let unit_vect_H := normalize (atom - v2b)
  LENGTH_CH_BOND • unit_vect_H + atom

/-- `get_CH_double_bond(atom, helper1, helper2)`: the single hydrogen of an
sp2 carbon; `calc_angle` may raise, which propagates. -/
noncomputable def get_CH_double_bond (atom helper1 helper2 : Vec3) : Except String Vec3 :=
  (calc_angle helper1 atom helper2).map (fun theta =>
    let v2 := helper1 - atom
    let v3 := helper2 - atom
    let rotation_axis := normalize (cross_product v2 v3)
    let unit_vect_H := apply_rotation v3 rotation_axis theta
    LENGTH_CH_BOND • unit_vect_H + atom)

/-- `get_CH3(atom, helper1, helper2)`: the three hydrogens of a methyl group
(He eclipsed, then Hr and Hs by ±2π/3 about the atom→helper1 axis). -/
noncomputable def get_CH3 (atom helper1 helper2 : Vec3) : Vec3 × Vec3 × Vec3 :=
  let v2 := helper1 - atom
  let v3 := helper2 - atom
  let rotation_axis := normalize (cross_product v3 v2)
  let unit_vect_He := apply_rotation v2 rotation_axis TETRAHEDRAL_ANGLE
  let coor_He := LENGTH_CH_BOND • unit_vect_He + atom
  let rotation_axis2 := normalize (helper1 - atom)
  let v4 := normalize (coor_He - atom)
  let unit_vect_Hr := apply_rotation v4 rotation_axis2 (2 / 3 * Real.pi)
  let coor_Hr := LENGTH_CH_BOND • unit_vect_Hr + atom
  let v5 := normalize (coor_He - atom)
  let unit_vect_Hs := apply_rotation v5 rotation_axis2 (-(2 / 3) * Real.pi)
  let coor_Hs := LENGTH_CH_BOND • unit_vect_Hs + atom
  (coor_He, coor_Hr, coor_Hs)

theorem apply_rotation_zero_vec (axis : Vec3) (θ : ℝ) : apply_rotation 0 axis θ = 0 := by
  rw [apply_rotation, matvec_zero, normalize_zero]

/-- CLAIM C5 (amended) — on degenerate (coincident helper) input, neither
`normalize` nor the placement rules fail with an error: `normalize` is a total
function that divides by zero (numpy: `nan` components, silently; embedding:
zero components), `get_CH2` returns junk hydrogens at the atom position, and
`get_CH_double_bond` returns `Except.ok` with a junk hydrogen; no
`GeometryDegenerate` or `DivideByZero` error exists in the code. -/
theorem degenerate_total (a : Vec3) :
    normalize (a - a) = 0 ∧
    get_CH2 a a a = (a, a) ∧
    get_CH_double_bond a a a = Except.ok a := by
  have h0 : a - a = 0 := sub_self_vec a
  refine ⟨by rw [h0, normalize_zero], ?_, ?_⟩
  · simp [get_CH2, h0, apply_rotation_zero_vec, sub_self_vec]
  · have hca : calc_angle a a a = Except.ok (Real.arccos 0) := by
      rw [calc_angle]
      norm_num [h0]
    rw [get_CH_double_bond, hca]
    simp [Except.map, h0, apply_rotation_zero_vec]

/-- Counterexample for CLAIM C5 — at the concrete fully degenerate input
(atom and both helpers at the origin) the placement rules return values
instead of failing: `normalize` returns the zero vector, `get_CH2` returns
two junk hydrogens, and `get_CH_double_bond` returns `Except.ok`, contradicting
the claimed GeometryDegenerate/DivideByZero failures. -/
theorem degenerate_total_counterexample :
    normalize ⟨0, 0, 0⟩ = 0 ∧
    get_CH2 ⟨0, 0, 0⟩ ⟨0, 0, 0⟩ ⟨0, 0, 0⟩ = (⟨0, 0, 0⟩, ⟨0, 0, 0⟩) ∧
    get_CH_double_bond ⟨0, 0, 0⟩ ⟨0, 0, 0⟩ ⟨0, 0, 0⟩ = Except.ok ⟨0, 0, 0⟩ := by
  have hz : (⟨0, 0, 0⟩ : Vec3) = 0 := rfl
  have h0 : (⟨0, 0, 0⟩ : Vec3) - ⟨0, 0, 0⟩ = 0 := by rw [hz, sub_self_vec]
  refine ⟨by rw [hz, normalize_zero], ?_, ?_⟩
  · simp [get_CH2, h0, hz, apply_rotation_zero_vec, sub_self_vec]
  · have hca : calc_angle ⟨0, 0, 0⟩ ⟨0, 0, 0⟩ ⟨0, 0, 0⟩ = Except.ok (Real.arccos 0) := by
      rw [calc_angle]
      norm_num [h0]
    rw [get_CH_double_bond, hca]
    simp [Except.map, h0, hz, sub_self_vec, apply_rotation_zero_vec]

/-- CLAIM C8 (amended) — rotating by `θ` and then by `−θ` about the same
non-zero axis returns the *normalized* original vector (exactly), hence the
original vector itself whenever the input is a unit vector; `apply_rotation`
normalizes its result, so the input's length is not recovered in general. -/
theorem apply_rotation_roundtrip (v axis : Vec3) (θ : ℝ) (ha : axis ≠ 0) :
    apply_rotation (apply_rotation v axis θ) axis (-θ) = normalize v ∧
    (dot v v = 1 → apply_rotation (apply_rotation v axis θ) axis (-θ) = v) := by
  have hq := qnorm2_vec2quaternion ha θ
  by_cases hv : v = 0
  · subst hv
    refine ⟨by simp [apply_rotation_zero_vec], fun h => absurd h (by simp)⟩
  · set w1 := matvec (calc_rotation_matrix (vec2quaternion axis θ)) v with hw1
    have hw1ne : w1 ≠ 0 := matvec_rot_ne_zero hv ha θ
    have hn1 : 0 < norm w1 := norm_pos' hw1ne
    have step1 : apply_rotation v axis θ = (norm w1)⁻¹ • w1 := by
      rw [apply_rotation, ← hw1, normalize_eq_smul]
    have hback : matvec (calc_rotation_matrix (qconj (vec2quaternion axis θ))) w1 = v := by
      rw [hw1, rot_conj_rot, hq, one_pow, one_smul_vec]
    have step2 : apply_rotation ((norm w1)⁻¹ • w1) axis (-θ) = normalize v := by
      rw [apply_rotation, vec2quaternion_neg, matvec_smul, hback]
      exact normalize_smul_of_pos (inv_pos.mpr hn1) v
    exact ⟨by rw [step1, step2], fun hunit => by rw [step1, step2, normalize_of_unit hunit]⟩

/-- Witness for C8 (amended) at `v = (2,0,0)`, axis `(0,0,1)`, `θ = 0`. -/
theorem apply_rotation_roundtrip_witness :
    ((⟨0, 0, 1⟩ : Vec3) ≠ 0) ∧
    apply_rotation (apply_rotation ⟨2, 0, 0⟩ ⟨0, 0, 1⟩ 0) ⟨0, 0, 1⟩ (-0) =
      normalize ⟨2, 0, 0⟩ := by
  have ha : (⟨0, 0, 1⟩ : Vec3) ≠ 0 := by
    simp [Vec3.ext_iff]
  exact ⟨ha, (apply_rotation_roundtrip ⟨2, 0, 0⟩ ⟨0, 0, 1⟩ 0 ha).1⟩

theorem sqrt_four : Real.sqrt 4 = 2 := by
  rw [show (4 : ℝ) = 2 ^ 2 by norm_num, Real.sqrt_sq (by norm_num : (0 : ℝ) ≤ 2)]

/-- Counterexample for CLAIM C8 — with `v = (2,0,0)`, axis `(0,0,1)`, `θ = 0`
the round trip returns `(1,0,0)`, not the original vector: the first component
differs from the original by `1`, far beyond the claimed `1e-9` tolerance. -/
theorem apply_rotation_counterexample :
    apply_rotation (apply_rotation ⟨2, 0, 0⟩ ⟨0, 0, 1⟩ 0) ⟨0, 0, 1⟩ (-0) = ⟨1, 0, 0⟩ ∧
    ((⟨1, 0, 0⟩ : Vec3) ≠ ⟨2, 0, 0⟩) ∧
    ¬ |((⟨1, 0, 0⟩ : Vec3)).x - ((⟨2, 0, 0⟩ : Vec3)).x| ≤ 1e-9 := by
  have hnormed1 : normalize ⟨0, 0, 1⟩ = ⟨0, 0, 1⟩ :=
    normalize_of_unit (by norm_num [dot])
  have hq0 : vec2quaternion ⟨0, 0, 1⟩ 0 = ⟨1, 0, 0, 0⟩ := by
    ext <;> simp [vec2quaternion]
  have hqneg0 : vec2quaternion ⟨0, 0, 1⟩ (-0) = ⟨1, 0, 0, 0⟩ := by
    rw [neg_zero, hq0]
  have hRid : calc_rotation_matrix ⟨1, 0, 0, 0⟩ = (⟨1, 0, 0⟩, ⟨0, 1, 0⟩, ⟨0, 0, 1⟩) := by
    norm_num [calc_rotation_matrix, Prod.ext_iff, Vec3.ext_iff]
  have hmat2 : matvec (⟨1, 0, 0⟩, ⟨0, 1, 0⟩, ⟨0, 0, 1⟩) ⟨2, 0, 0⟩ = ⟨2, 0, 0⟩ := by
    norm_num [matvec, dot, Vec3.ext_iff]
  have hmat1 : matvec (⟨1, 0, 0⟩, ⟨0, 1, 0⟩, ⟨0, 0, 1⟩) ⟨1, 0, 0⟩ = ⟨1, 0, 0⟩ := by
    norm_num [matvec, dot, Vec3.ext_iff]
  have hn2 : norm ⟨2, 0, 0⟩ = 2 := by
    have hd : dot ⟨2, 0, 0⟩ ⟨2, 0, 0⟩ = 4 := by norm_num [dot]
    rw [norm, hd, sqrt_four]
  have hnormed2 : normalize ⟨2, 0, 0⟩ = ⟨1, 0, 0⟩ := by
    ext <;> norm_num [normalize, hn2]
  have step1 : apply_rotation ⟨2, 0, 0⟩ ⟨0, 0, 1⟩ 0 = ⟨1, 0, 0⟩ := by
    rw [apply_rotation, hq0, hRid, hmat2, hnormed2]
  have step2 : apply_rotation ⟨1, 0, 0⟩ ⟨0, 0, 1⟩ (-0) = ⟨1, 0, 0⟩ := by
    rw [apply_rotation, hqneg0, hRid, hmat1]
    exact normalize_of_unit (by norm_num [dot])
  refine ⟨by rw [step1, step2], by simp [Vec3.ext_iff], by norm_num⟩

theorem cauchy_schwarz_dot (a b : Vec3) : dot a b ^ 2 ≤ dot a a * dot b b := by
  have h1 := dot_cross_cross a b
  have h2 := dot_self_nonneg (cross_product a b)
  linarith

theorem costheta_mem_Icc {v1 v2 : Vec3} (h1 : v1 ≠ 0) (h2 : v2 ≠ 0) :
    -1 ≤ dot v1 v2 / (norm v1 * norm v2) ∧ dot v1 v2 / (norm v1 * norm v2) ≤ 1 := by
  have hn1 := norm_pos' h1
  have hn2 := norm_pos' h2
  have hnn : 0 < norm v1 * norm v2 := mul_pos hn1 hn2
  have hsq : norm v1 * norm v2 * (norm v1 * norm v2) = dot v1 v1 * dot v2 v2 := by
    rw [show norm v1 * norm v2 * (norm v1 * norm v2) =
      (norm v1 * norm v1) * (norm v2 * norm v2) by ring, norm_mul_self, norm_mul_self]
  have hcs := cauchy_schwarz_dot v1 v2
  constructor
  · rw [le_div_iff₀ hnn]
    nlinarith [sq_nonneg (dot v1 v2 + norm v1 * norm v2)]
  · rw [div_le_one hnn]
    nlinarith [sq_nonneg (dot v1 v2 - norm v1 * norm v2)]

/-- On non-degenerate input the `ValueError` branch of `calc_angle` is
unreachable and it returns `arccos` of the cosine. -/
theorem calc_angle_ok {a1 a2 a3 : Vec3} (h1 : a1 - a2 ≠ 0) (h3 : a3 - a2 ≠ 0) :
    calc_angle a1 a2 a3 =
      Except.ok (Real.arccos (dot (a1 - a2) (a3 - a2) / (norm (a1 - a2) * norm (a3 - a2)))) := by
  obtain ⟨hl, hr⟩ := costheta_mem_Icc h1 h3
  rw [calc_angle, if_neg]
  push_neg
  exact ⟨by linarith, by linarith⟩

/-- CLAIM C9 — `calc_angle` returns `arccos(dot/(|v1||v2|))`; for non-zero
difference vectors the cosine provably lies in `[-1, 1]` (Cauchy–Schwarz), so
the `ValueError` branch — taken exactly when the cosine falls outside `[-1,1]`
— never fires, and no `nan` is silently produced in exact arithmetic. -/
theorem calc_angle_spec (atom1 atom2 atom3 : Vec3)
    (h1 : atom1 - atom2 ≠ 0) (h3 : atom3 - atom2 ≠ 0) :
    (-1 ≤ dot (atom1 - atom2) (atom3 - atom2) /
        (norm (atom1 - atom2) * norm (atom3 - atom2)) ∧
      dot (atom1 - atom2) (atom3 - atom2) /
        (norm (atom1 - atom2) * norm (atom3 - atom2)) ≤ 1) ∧
    calc_angle atom1 atom2 atom3 =
      Except.ok (Real.arccos (dot (atom1 - atom2) (atom3 - atom2) /
        (norm (atom1 - atom2) * norm (atom3 - atom2)))) :=
  ⟨costheta_mem_Icc h1 h3, calc_angle_ok h1 h3⟩

/-- Witness for C9 at the concrete input `(1,0,0)`, `(0,0,0)`, `(0,1,0)`. -/
theorem calc_angle_spec_witness :
    ((⟨1, 0, 0⟩ : Vec3) - ⟨0, 0, 0⟩ ≠ 0) ∧ ((⟨0, 1, 0⟩ : Vec3) - ⟨0, 0, 0⟩ ≠ 0) ∧
    calc_angle ⟨1, 0, 0⟩ ⟨0, 0, 0⟩ ⟨0, 1, 0⟩ =
      Except.ok (Real.arccos (dot ((⟨1, 0, 0⟩ : Vec3) - ⟨0, 0, 0⟩) ((⟨0, 1, 0⟩ : Vec3) - ⟨0, 0, 0⟩) /
        (norm ((⟨1, 0, 0⟩ : Vec3) - ⟨0, 0, 0⟩) * norm ((⟨0, 1, 0⟩ : Vec3) - ⟨0, 0, 0⟩)))) := by
  have h1 : (⟨1, 0, 0⟩ : Vec3) - ⟨0, 0, 0⟩ ≠ 0 := by
    simp [Vec3.ext_iff]
  have h3 : (⟨0, 1, 0⟩ : Vec3) - ⟨0, 0, 0⟩ ≠ 0 := by
    simp [Vec3.ext_iff]
  exact ⟨h1, h3, (calc_angle_spec ⟨1, 0, 0⟩ ⟨0, 0, 0⟩ ⟨0, 1, 0⟩ h1 h3).2⟩

theorem dot_smul_right (c : ℝ) (a b : Vec3) : dot a (c • b) = c * dot a b := by
  simp [dot]; ring

theorem dot_cross_right_self (a b : Vec3) : dot b (cross_product a b) = 0 := by
  simp [dot, cross_product]; ring

theorem qnorm2_qconj (q : Quat) : qnorm2 (qconj q) = qnorm2 q := by
  simp [qnorm2, qconj]

theorem smul_left_cancel_vec {c : ℝ} (hc : c ≠ 0) {a b : Vec3} (h : c • a = c • b) :
    a = b := by
  have hx := congrArg Vec3.x h
  have hy := congrArg Vec3.y h
  have hz := congrArg Vec3.z h
  simp only [smul_x, smul_y, smul_z] at hx hy hz
  ext
  · exact mul_left_cancel₀ hc hx
  · exact mul_left_cancel₀ hc hy
  · exact mul_left_cancel₀ hc hz

/-- `⟨v, R(q²)v⟩` for a quaternion `⟨c, s·n⟩` with unit axis `n` orthogonal to
the unit vector `v`: the cross-term vanishes and the result is the double-angle
cosine expression `(c²−s²)² − 4c²s²`. -/
theorem dot_v_rot_qsq {n v : Vec3} (hn : dot n n = 1) (hv : dot v v = 1)
    (hperp : dot n v = 0) (c s : ℝ) :
    dot v (matvec (calc_rotation_matrix (qsq ⟨c, s * n.x, s * n.y, s * n.z⟩)) v) =
      (c ^ 2 - s ^ 2) ^ 2 - 4 * c ^ 2 * s ^ 2 := by
  rw [dot_self_rot, hv]
  simp only [dot] at hn hperp
  simp only [qsq]
  linear_combination
    (-(s ^ 2) * (2 * c ^ 2 - s ^ 2 * ((n.x * n.x + n.y * n.y + n.z * n.z) + 1)) -
        4 * c ^ 2 * s ^ 2) * hn +
      (8 * c ^ 2 * s ^ 2 * (n.x * v.x + n.y * v.y + n.z * v.z)) * hperp

/-- CLAIM C4 — for every non-degenerate CH2 input (helpers not coincident or
colinear with the atom), `get_CH2` produces two distinct hydrogens, H1 (the
`−TETRAHEDRAL_ANGLE/2` rotation) first and H2 (the `+TETRAHEDRAL_ANGLE/2`
rotation) second, each at distance exactly `1.09` from the carbon, and with
H1–atom–H2 valence angle exactly `arccos(−1/3) = TETRAHEDRAL_ANGLE`. -/
theorem get_CH2_spec (atom helper1 helper2 : Vec3)
    (hnd : cross_product (helper2 - atom) (helper1 - atom) ≠ 0) :
    norm ((get_CH2 atom helper1 helper2).1 - atom) = 1.09 ∧
    norm ((get_CH2 atom helper1 helper2).2 - atom) = 1.09 ∧
    (get_CH2 atom helper1 helper2).1 ≠ (get_CH2 atom helper1 helper2).2 ∧
    calc_angle (get_CH2 atom helper1 helper2).1 atom (get_CH2 atom helper1 helper2).2 =
      Except.ok TETRAHEDRAL_ANGLE := by
  have hb1 : helper1 - atom ≠ 0 := by
    intro h
    rw [h, cross_zero_right] at hnd
    exact hnd rfl
  have hb2 : helper2 - atom ≠ 0 := by
    intro h
    rw [h, cross_zero_left] at hnd
    exact hnd rfl
  set v2 := normalize (helper1 - atom) with hv2
  set v3 := normalize (helper2 - atom) with hv3
  have hc32 : cross_product v3 v2 ≠ 0 := by
    rw [hv3, hv2, normalize_eq_smul, normalize_eq_smul, cross_smul_smul]
    exact smul_ne_zero_vec
      (mul_ne_zero (inv_ne_zero (norm_pos' hb2).ne') (inv_ne_zero (norm_pos' hb1).ne')) hnd
  set v4 := normalize (cross_product v3 v2) with hv4
  have hu4 : dot v4 v4 = 1 := dot_normalize_self hc32
  have hperp42 : dot v4 v2 = 0 := by
    rw [hv4, normalize_eq_smul, dot_smul_left, dot_cross_right, mul_zero]
  have hperp43 : dot v4 v3 = 0 := by
    rw [hv4, normalize_eq_smul, dot_smul_left, dot_cross_left, mul_zero]
  have hdiff : v2 - v3 ≠ 0 := by
    intro h
    have h23 : v2 = v3 := sub_eq_zero_vec.mp h
    rw [h23] at hc32
    exact hc32 (cross_self v3)
  set ax := normalize (v2 - v3) with hax
  have huax : dot ax ax = 1 := dot_normalize_self hdiff
  have haxne : ax ≠ 0 := normalize_ne_zero hdiff
  have hn_ax : normalize ax = ax := normalize_of_unit huax
  have hperp4ax : dot v4 ax = 0 := by
    rw [hax, normalize_eq_smul, dot_smul_right, dot_sub_right, hperp42, hperp43]
    ring
  have hw : dot (cross_product v4 ax) (cross_product v4 ax) = 1 := by
    rw [dot_cross_cross, hu4, huax, hperp4ax]
    ring
  set vtr := normalize (cross_product v4 ax) with hvtr
  have hvtr_eq : vtr = cross_product v4 ax := normalize_of_unit hw
  have hutr : dot vtr vtr = 1 := by
    rw [hvtr_eq]
    exact hw
  have hperp_ax_tr : dot ax vtr = 0 := by
    rw [hvtr_eq]
    exact dot_cross_right_self v4 ax
  set q := vec2quaternion ax (TETRAHEDRAL_ANGLE / 2) with hqdef
  have hq1 : qnorm2 q = 1 := by
    rw [hqdef]
    exact qnorm2_vec2quaternion haxne _
  have hq1c : qnorm2 (qconj q) = 1 := by
    rw [qnorm2_qconj]
    exact hq1
  set u2v := matvec (calc_rotation_matrix q) vtr with hu2v
  set u1v := matvec (calc_rotation_matrix (qconj q)) vtr with hu1v
  have hconv : vec2quaternion ax (-TETRAHEDRAL_ANGLE / 2) = qconj q := by
    rw [neg_div, vec2quaternion_neg, hqdef]
  have hd1 : dot u1v u1v = 1 := by
    rw [hu1v, dot_rot_self hq1c, hutr]
  have hd2 : dot u2v u2v = 1 := by
    rw [hu2v, dot_rot_self hq1, hutr]
  have hnu1 : normalize u1v = u1v := normalize_of_unit hd1
  have hnu2 : normalize u2v = u2v := normalize_of_unit hd2
  have hfst : (get_CH2 atom helper1 helper2).1 = LENGTH_CH_BOND • u1v + atom := by
    show LENGTH_CH_BOND • apply_rotation vtr ax (-TETRAHEDRAL_ANGLE / 2) + atom = _
    rw [apply_rotation, hconv, ← hu1v, hnu1]
  have hsnd : (get_CH2 atom helper1 helper2).2 = LENGTH_CH_BOND • u2v + atom := by
    show LENGTH_CH_BOND • apply_rotation vtr ax (TETRAHEDRAL_ANGLE / 2) + atom = _
    rw [apply_rotation, ← hqdef, ← hu2v, hnu2]
  have hL : (0 : ℝ) < LENGTH_CH_BOND := by
    norm_num [LENGTH_CH_BOND]
  have habs : |LENGTH_CH_BOND| = 1.09 := by
    rw [abs_of_pos hL]
    rfl
  have hqform : q = ⟨Real.cos (TETRAHEDRAL_ANGLE / 2 / 2),
      Real.sin (TETRAHEDRAL_ANGLE / 2 / 2) * ax.x,
      Real.sin (TETRAHEDRAL_ANGLE / 2 / 2) * ax.y,
      Real.sin (TETRAHEDRAL_ANGLE / 2 / 2) * ax.z⟩ := by
    rw [hqdef, vec2quaternion, hn_ax]
  have hcosT : Real.cos TETRAHEDRAL_ANGLE = -(1 / 3) :=
    Real.cos_arccos (by norm_num) (by norm_num)
  have hdot12 : dot u1v u2v = -(1 / 3) := by
    rw [hu1v, hu2v, rot_conj_dot_rot, hqform, dot_v_rot_qsq huax hutr hperp_ax_tr]
    have h1 := (Real.cos_two_mul' (TETRAHEDRAL_ANGLE / 2 / 2)).symm
    have h2 := Real.sin_two_mul (TETRAHEDRAL_ANGLE / 2 / 2)
    have h3 := (Real.cos_two_mul' (2 * (TETRAHEDRAL_ANGLE / 2 / 2))).symm
    have harg : 2 * (2 * (TETRAHEDRAL_ANGLE / 2 / 2)) = TETRAHEDRAL_ANGLE := by ring
    rw [harg] at h3
    linear_combination
      (Real.cos (TETRAHEDRAL_ANGLE / 2 / 2) ^ 2 - Real.sin (TETRAHEDRAL_ANGLE / 2 / 2) ^ 2 +
          Real.cos (2 * (TETRAHEDRAL_ANGLE / 2 / 2))) * h1 +
        h3 +
        (Real.sin (2 * (TETRAHEDRAL_ANGLE / 2 / 2)) +
            2 * Real.sin (TETRAHEDRAL_ANGLE / 2 / 2) * Real.cos (TETRAHEDRAL_ANGLE / 2 / 2)) * h2 +
        hcosT
  refine ⟨?_, ?_, ?_, ?_⟩
  · rw [hfst, add_sub_cancel_vec, norm_smul_vec, norm_one_of_unit hd1, habs, mul_one]
  · rw [hsnd, add_sub_cancel_vec, norm_smul_vec, norm_one_of_unit hd2, habs, mul_one]
  · rw [hfst, hsnd]
    intro heq
    have h' := congrArg (fun p => p - atom) heq
    simp only [add_sub_cancel_vec] at h'
    have h12 : u1v = u2v := smul_left_cancel_vec hL.ne' h'
    rw [h12, hd2] at hdot12
    norm_num at hdot12
  · rw [hfst, hsnd]
    have hcost : dot (LENGTH_CH_BOND • u1v + atom - atom) (LENGTH_CH_BOND • u2v + atom - atom) /
        (norm (LENGTH_CH_BOND • u1v + atom - atom) * norm (LENGTH_CH_BOND • u2v + atom - atom)) =
          -(1 / 3) := by
      rw [add_sub_cancel_vec, add_sub_cancel_vec, dot_smul_smul, hdot12, norm_smul_vec,
        norm_smul_vec, norm_one_of_unit hd1, norm_one_of_unit hd2, habs]
      rw [show LENGTH_CH_BOND = (1.09 : ℝ) from rfl]
      norm_num
    simp only [calc_angle]
    rw [hcost, if_neg (by norm_num)]
    rfl

/-- Witness for C4 at atom `(0,0,0)`, helpers `(1,0,0)` and `(0,1,0)`. -/
theorem get_CH2_spec_witness :
    (cross_product ((⟨0, 1, 0⟩ : Vec3) - ⟨0, 0, 0⟩) ((⟨1, 0, 0⟩ : Vec3) - ⟨0, 0, 0⟩) ≠ 0) ∧
    norm ((get_CH2 ⟨0, 0, 0⟩ ⟨1, 0, 0⟩ ⟨0, 1, 0⟩).1 - ⟨0, 0, 0⟩) = 1.09 ∧
    norm ((get_CH2 ⟨0, 0, 0⟩ ⟨1, 0, 0⟩ ⟨0, 1, 0⟩).2 - ⟨0, 0, 0⟩) = 1.09 ∧
    calc_angle (get_CH2 ⟨0, 0, 0⟩ ⟨1, 0, 0⟩ ⟨0, 1, 0⟩).1 ⟨0, 0, 0⟩
      (get_CH2 ⟨0, 0, 0⟩ ⟨1, 0, 0⟩ ⟨0, 1, 0⟩).2 = Except.ok TETRAHEDRAL_ANGLE := by
  have hnd : cross_product ((⟨0, 1, 0⟩ : Vec3) - ⟨0, 0, 0⟩) ((⟨1, 0, 0⟩ : Vec3) - ⟨0, 0, 0⟩) ≠ 0 := by
    norm_num [cross_product, Vec3.ext_iff]
  obtain ⟨h1, h2, _, h4⟩ := get_CH2_spec ⟨0, 0, 0⟩ ⟨1, 0, 0⟩ ⟨0, 1, 0⟩ hnd
  exact ⟨hnd, h1, h2, h4⟩

theorem abs_LENGTH : |LENGTH_CH_BOND| = 1.09 := by
  rw [abs_of_pos (by norm_num [LENGTH_CH_BOND] : (0 : ℝ) < LENGTH_CH_BOND)]
  rfl

theorem sub_add_self_vec (a s : Vec3) (c : ℝ) : a - (c • s + a) = (-c) • s := by
  ext <;> simp only [sub_x, add_x, smul_x, sub_y, add_y, smul_y, sub_z, add_z, smul_z] <;> ring

/-- CLAIM C10 — on non-degenerate input, `get_CH` (sp3, 3 helpers) returns its
single hydrogen at distance exactly `1.09` from the atom, and
`get_CH_double_bond` (sp2, 2 helpers) succeeds and returns its single hydrogen
at distance exactly `1.09` from the atom: both rules use the same
`LENGTH_CH_BOND` rescaling of a unit vector as CH2/CH3. -/
theorem bond_length_CH_CHdouble (atom helper1 helper2 helper3 a g1 g2 : Vec3)
    (hch : normalize (helper1 - atom) + normalize (helper2 - atom) +
      normalize (helper3 - atom) ≠ 0)
    (hdb : cross_product (g1 - a) (g2 - a) ≠ 0) :
    norm (get_CH atom helper1 helper2 helper3 - atom) = 1.09 ∧
    ∃ H, get_CH_double_bond a g1 g2 = Except.ok H ∧ norm (H - a) = 1.09 := by
  constructor
  · set s := normalize (helper1 - atom) + normalize (helper2 - atom) +
      normalize (helper3 - atom) with hs
    have hne : atom - (((1 : ℝ) / 3) • s + atom) ≠ 0 := by
      rw [sub_add_self_vec]
      exact smul_ne_zero_vec (by norm_num) hch
    have hunf : get_CH atom helper1 helper2 helper3 =
        LENGTH_CH_BOND • normalize (atom - (((1 : ℝ) / 3) • s + atom)) + atom := rfl
    rw [hunf, add_sub_cancel_vec, norm_smul_vec, norm_normalize hne, abs_LENGTH, mul_one]
  · have hg1 : g1 - a ≠ 0 := by
      intro h
      rw [h, cross_zero_left] at hdb
      exact hdb rfl
    have hg2 : g2 - a ≠ 0 := by
      intro h
      rw [h, cross_zero_right] at hdb
      exact hdb rfl
    have hca := calc_angle_ok hg1 hg2
    have haxne : normalize (cross_product (g1 - a) (g2 - a)) ≠ 0 := normalize_ne_zero hdb
    refine ⟨LENGTH_CH_BOND • apply_rotation (g2 - a)
        (normalize (cross_product (g1 - a) (g2 - a)))
        (Real.arccos (dot (g1 - a) (g2 - a) / (norm (g1 - a) * norm (g2 - a)))) + a, ?_, ?_⟩
    · rw [get_CH_double_bond, hca]
      rfl
    · rw [add_sub_cancel_vec, norm_smul_vec, norm_apply_rotation hg2 haxne, abs_LENGTH, mul_one]

/-- Witness for C10 at atom `(0,0,0)` with helpers `(1,0,0)`, `(0,1,0)`,
`(0,0,1)` for the CH rule, and `(1,0,0)`, `(0,1,0)` for the sp2 rule. -/
theorem bond_length_CH_CHdouble_witness :
    (normalize ((⟨1, 0, 0⟩ : Vec3) - ⟨0, 0, 0⟩) + normalize ((⟨0, 1, 0⟩ : Vec3) - ⟨0, 0, 0⟩) +
      normalize ((⟨0, 0, 1⟩ : Vec3) - ⟨0, 0, 0⟩) ≠ 0) ∧
    (cross_product ((⟨1, 0, 0⟩ : Vec3) - ⟨0, 0, 0⟩) ((⟨0, 1, 0⟩ : Vec3) - ⟨0, 0, 0⟩) ≠ 0) ∧
    norm (get_CH ⟨0, 0, 0⟩ ⟨1, 0, 0⟩ ⟨0, 1, 0⟩ ⟨0, 0, 1⟩ - ⟨0, 0, 0⟩) = 1.09 ∧
    ∃ H, get_CH_double_bond ⟨0, 0, 0⟩ ⟨1, 0, 0⟩ ⟨0, 1, 0⟩ = Except.ok H ∧
      norm (H - ⟨0, 0, 0⟩) = 1.09 := by
  have e1 : (⟨1, 0, 0⟩ : Vec3) - ⟨0, 0, 0⟩ = ⟨1, 0, 0⟩ := by
    ext <;> norm_num
  have e2 : (⟨0, 1, 0⟩ : Vec3) - ⟨0, 0, 0⟩ = ⟨0, 1, 0⟩ := by
    ext <;> norm_num
  have e3 : (⟨0, 0, 1⟩ : Vec3) - ⟨0, 0, 0⟩ = ⟨0, 0, 1⟩ := by
    ext <;> norm_num
  have hch : normalize ((⟨1, 0, 0⟩ : Vec3) - ⟨0, 0, 0⟩) +
      normalize ((⟨0, 1, 0⟩ : Vec3) - ⟨0, 0, 0⟩) +
      normalize ((⟨0, 0, 1⟩ : Vec3) - ⟨0, 0, 0⟩) ≠ 0 := by
    rw [e1, e2, e3, normalize_of_unit (by norm_num [dot]),
      normalize_of_unit (by norm_num [dot]), normalize_of_unit (by norm_num [dot])]
    simp [Vec3.ext_iff]
  have hdb : cross_product ((⟨1, 0, 0⟩ : Vec3) - ⟨0, 0, 0⟩)
      ((⟨0, 1, 0⟩ : Vec3) - ⟨0, 0, 0⟩) ≠ 0 := by
    rw [e1, e2]
    norm_num [cross_product, Vec3.ext_iff]
  obtain ⟨h1, h2⟩ := bond_length_CH_CHdouble ⟨0, 0, 0⟩ ⟨1, 0, 0⟩ ⟨0, 1, 0⟩ ⟨0, 0, 1⟩
    ⟨0, 0, 0⟩ ⟨1, 0, 0⟩ ⟨0, 1, 0⟩ hch hdb
  exact ⟨hch, hdb, h1, h2⟩

/-- One entry of `dic_lipid`: the recipe tuple `(typeofH2build, helper1_name,
helper2_name[, helper3_name])`; a length-3 tuple is modelled with
`helper3 = none`. -/
structure LipidEntry where
  kind : String
  helper1 : String
  helper2 : String
  helper3 : Option String

/-- One entry of `dic_lipids_with_indexes`: the recipe extended with the
in-residue index of the carbon and of each helper (the name fields, unused by
the fast path, are dropped). -/
structure LipidEntryIx where
  kind : String
  cix : ℕ
  h1ix : ℕ
  h2ix : ℕ
  h3ix : Option ℕ

/-- `buildHs_on_1C(atom, dic_lipid)` (slow strategy): resolve helper positions
by name within the residue (`residuePos`, `none` models the `IndexError` of an
empty MDAnalysis selection), then dispatch on `typeofH2build`.  The `"CH"`
branch with a 3-field recipe references the unbound `helper3_name`
(`NameError`); an unknown code raises `UserWarning`. -/
noncomputable def buildHs_on_1C (residuePos : String → Option Vec3) (atomPos : Vec3)
    (e : LipidEntry) : Except String (List Vec3) :=
  match residuePos e.helper1, residuePos e.helper2 with
  | some helper1_coor, some helper2_coor =>
    if e.kind = "CH2" then
      Except.ok [(get_CH2 atomPos helper1_coor helper2_coor).1,
        (get_CH2 atomPos helper1_coor helper2_coor).2]
    else if e.kind = "CH" then
      match e.helper3 with
      | none => Except.error ("NameError")
      | some helper3_name =>
        match residuePos helper3_name with
        | none => Except.error ("IndexError")
        | some helper3_coor =>
          Except.ok [get_CH atomPos helper1_coor helper2_coor helper3_coor]
    else if e.kind = "CHdoublebond" then
      (get_CH_double_bond atomPos helper1_coor helper2_coor).map (fun H => [H])
    else if e.kind = "CH3" then
      Except.ok [(get_CH3 atomPos helper1_coor helper2_coor).1,
        (get_CH3 atomPos helper1_coor helper2_coor).2.1,
        (get_CH3 atomPos helper1_coor helper2_coor).2.2]
    else
      Except.error ("UserWarning")
  | _, _ => Except.error ("IndexError")

/-- `fast_buildHs_on_1C(dic_lipids_with_indexes, ts, Cname, ix_first_atom_res)`
(fast strategy): direct offset-based indexing into the frame coordinate array
`ts`, then the same dispatch on `typeofH2build`. -/
noncomputable def fast_buildHs_on_1C (ts : ℕ → Vec3) (e : LipidEntryIx)
    (ix_first_atom_res : ℕ) : Except String (List Vec3) :=
  let Cname_position := ts (e.cix + ix_first_atom_res)
  let helper1_coor := ts (e.h1ix + ix_first_atom_res)
  let helper2_coor := ts (e.h2ix + ix_first_atom_res)
  if e.kind = "CH2" then
    Except.ok [(get_CH2 Cname_position helper1_coor helper2_coor).1,
      (get_CH2 Cname_position helper1_coor helper2_coor).2]
  else if e.kind = "CH" then
    match e.h3ix with
    | none => Except.error ("NameError")
    | some h3ix =>
      Except.ok [get_CH Cname_position helper1_coor helper2_coor (ts (h3ix + ix_first_atom_res))]
  else if e.kind = "CHdoublebond" then
    (get_CH_double_bond Cname_position helper1_coor helper2_coor).map (fun H => [H])
  else if e.kind = "CH3" then
    Except.ok [(get_CH3 Cname_position helper1_coor helper2_coor).1,
      (get_CH3 Cname_position helper1_coor helper2_coor).2.1,
      (get_CH3 Cname_position helper1_coor helper2_coor).2.2]
  else
    Except.error ("UserWarning")

/-- CLAIM C2 — for any frame, residue instance and carbon, the slow
name-lookup strategy and the fast index-offset strategy call the same
placement rule on the same coordinates and so return identical hydrogens and
bit-identical order-parameter values, whenever the precomputed index template
is consistent with name resolution (the invariant `make_dic_lipids_with_indexes`
establishes): same recipe kind, the carbon offset resolves to the atom's
position, and every helper-name lookup returns exactly the coordinate at the
corresponding offset. -/
theorem fast_slow_equiv (residuePos : String → Option Vec3) (ts : ℕ → Vec3)
    (atomPos : Vec3) (e : LipidEntry) (eIx : LipidEntryIx) (ix_first : ℕ)
    (hkind : eIx.kind = e.kind)
    (hc : ts (eIx.cix + ix_first) = atomPos)
    (hh1 : residuePos e.helper1 = some (ts (eIx.h1ix + ix_first)))
    (hh2 : residuePos e.helper2 = some (ts (eIx.h2ix + ix_first)))
    (hh3 : (e.helper3 = none ∧ eIx.h3ix = none) ∨
      (∃ n ix, e.helper3 = some n ∧ eIx.h3ix = some ix ∧
        residuePos n = some (ts (ix + ix_first)))) :
    buildHs_on_1C residuePos atomPos e = fast_buildHs_on_1C ts eIx ix_first ∧
    (buildHs_on_1C residuePos atomPos e).map (List.map (calc_OP atomPos)) =
      (fast_buildHs_on_1C ts eIx ix_first).map
        (List.map (calc_OP (ts (eIx.cix + ix_first)))) := by
  have hmain : buildHs_on_1C residuePos atomPos e = fast_buildHs_on_1C ts eIx ix_first := by
    rw [buildHs_on_1C, fast_buildHs_on_1C]
    simp only [hh1, hh2, hkind, hc]
    rcases hh3 with ⟨hn3, hix3⟩ | ⟨n, ix, hn3, hix3, hl3⟩
    · rw [hn3, hix3]
    · simp only [hn3, hix3, hl3]
  exact ⟨hmain, by rw [hmain, hc]⟩

/-- Witness for C2: a one-residue CH2 carbon with the name map and the index
template resolving to the same concrete coordinates. -/
theorem fast_slow_equiv_witness :
    ((⟨"CH2", 0, 1, 2, none⟩ : LipidEntryIx).kind = (⟨"CH2", "A2", "A3", none⟩ : LipidEntry).kind) ∧
    ((fun i : ℕ => if i = 0 then (⟨0, 0, 0⟩ : Vec3) else if i = 1 then ⟨1, 0, 0⟩ else ⟨0, 1, 0⟩)
        ((⟨"CH2", 0, 1, 2, none⟩ : LipidEntryIx).cix + 0) = ⟨0, 0, 0⟩) ∧
    buildHs_on_1C
        (fun n : String => if n = "A2" then some (⟨1, 0, 0⟩ : Vec3) else some ⟨0, 1, 0⟩)
        ⟨0, 0, 0⟩ ⟨"CH2", "A2", "A3", none⟩ =
      fast_buildHs_on_1C
        (fun i : ℕ => if i = 0 then (⟨0, 0, 0⟩ : Vec3) else if i = 1 then ⟨1, 0, 0⟩ else ⟨0, 1, 0⟩)
        ⟨"CH2", 0, 1, 2, none⟩ 0 := by
  refine ⟨rfl, by simp, ?_⟩
  exact (fast_slow_equiv
    (fun n : String => if n = "A2" then some (⟨1, 0, 0⟩ : Vec3) else some ⟨0, 1, 0⟩)
    (fun i : ℕ => if i = 0 then (⟨0, 0, 0⟩ : Vec3) else if i = 1 then ⟨1, 0, 0⟩ else ⟨0, 1, 0⟩)
    ⟨0, 0, 0⟩ ⟨"CH2", "A2", "A3", none⟩ ⟨"CH2", 0, 1, 2, none⟩ 0
    rfl (by simp) (by simp) (by simp) (Or.inl ⟨rfl, rfl⟩)).1

/-- `a.mean()` of a list of values (with the `0 / 0 = 0` convention on the
empty list). -/
noncomputable def listMean (l : List ℝ) : ℝ :=
  l.sum / l.length

/-- `a.std()`: numpy population standard deviation (`ddof = 0`). -/
noncomputable def listPopStd (l : List ℝ) : ℝ :=
  Real.sqrt ((l.map (fun v => (v - listMean l) ^ 2)).sum / l.length)

/-- The results output block of `__main__`: for each bond key it writes
`(a.mean(), a.std(), 0.0)` computed on the flat list `dic_OP[key]` holding all
per-frame, per-residue S values pooled; the `OP_stem` column is the literal
constant `0.0`. -/
noncomputable def reportedStats (flat : List ℝ) : ℝ × ℝ × ℝ :=
  (listMean flat, listPopStd flat, 0)

/-- Modelled from the spec's two-level protocol, as the comparison target of
claim C1 (this is not in the code): mean of the per-residue means, population
std of the per-residue-mean vector, and stem = std / sqrt(residue count). -/
noncomputable def twoLevelStats (series : List (List ℝ)) : ℝ × ℝ × ℝ :=
  (listMean (series.map listMean),
   listPopStd (series.map listMean),
   listPopStd (series.map listMean) / Real.sqrt series.length)

theorem sum_map_length_const {m : ℕ} :
    ∀ L : List (List ℝ), (∀ s ∈ L, s.length = m) → (L.map List.length).sum = L.length * m := by
  intro L
  induction L with
  | nil => intro _; simp
  | cons s t ih =>
    intro h
    simp only [List.map_cons, List.sum_cons, List.length_cons]
    rw [h s (List.mem_cons_self s t), ih (fun x hx => h x (List.mem_cons_of_mem s hx))]
    ring

theorem sum_map_mean_const {m : ℕ} :
    ∀ L : List (List ℝ), (∀ s ∈ L, s.length = m) →
      (L.map listMean).sum = (L.map List.sum).sum / (m : ℝ) := by
  intro L
  induction L with
  | nil => intro _; simp
  | cons s t ih =>
    intro h
    simp only [List.map_cons, List.sum_cons]
    rw [listMean, h s (List.mem_cons_self s t),
      ih (fun x hx => h x (List.mem_cons_of_mem s hx)), add_div]

/-- CLAIM C1 (amended) — when every residue's series has the same length, the
reported `OP_mean` (mean of the pooled per-frame values) does equal the average
of the per-residue means; but the reported standard deviation is the population
std of the pooled per-frame values, not of the per-residue-mean vector, and the
reported `OP_stem` is the hard-coded constant `0.0`, not `std/sqrt(residue
count)`. -/
theorem reported_stats_amended (series : List (List ℝ)) (m : ℕ)
    (hall : ∀ s ∈ series, s.length = m) :
    (reportedStats series.flatten).1 = (twoLevelStats series).1 ∧
    (reportedStats series.flatten).2.2 = 0 := by
  constructor
  · show listMean series.flatten = listMean (series.map listMean)
    simp only [listMean]
    rw [List.sum_flatten, List.length_flatten, List.length_map,
      sum_map_length_const series hall, sum_map_mean_const series hall, Nat.cast_mul]
    ring
  · rfl

/-- Witness for C1 (amended) on the 2-residue, 2-frame series `[[0,2],[1,3]]`. -/
theorem reported_stats_amended_witness :
    (∀ s ∈ ([[0, 2], [1, 3]] : List (List ℝ)), s.length = 2) ∧
    (reportedStats ([[0, 2], [1, 3]] : List (List ℝ)).flatten).1 =
      (twoLevelStats [[0, 2], [1, 3]]).1 := by
  have hall : ∀ s ∈ ([[0, 2], [1, 3]] : List (List ℝ)), s.length = 2 := by
    intro s hs
    rcases List.mem_cons.mp hs with h | h
    · rw [h]; rfl
    · rcases List.mem_cons.mp h with h2 | h2
      · rw [h2]; rfl
      · exact absurd h2 (List.not_mem_nil s)
  exact ⟨hall, (reported_stats_amended [[0, 2], [1, 3]] 2 hall).1⟩

/-- Counterexample for CLAIM C1 — on the 2-residue, 2-frame series
`[[0,2],[1,3]]` the code reports std `sqrt(5/4)` (pooled per-frame values)
while the per-residue-mean vector `[1,2]` has population std `1/2`, and the
code reports stem `0` while `std/sqrt(2)` is positive: both the std and the
stem clauses of the claim fail. -/
theorem reported_stats_counterexample :
    (reportedStats ([[0, 2], [1, 3]] : List (List ℝ)).flatten).2.1 ≠
      (twoLevelStats [[0, 2], [1, 3]]).2.1 ∧
    (reportedStats ([[0, 2], [1, 3]] : List (List ℝ)).flatten).2.2 ≠
      (twoLevelStats [[0, 2], [1, 3]]).2.2 := by
  have hjoin : ([[0, 2], [1, 3]] : List (List ℝ)).flatten = [0, 2, 1, 3] := rfl
  have hM : listMean ([0, 2, 1, 3] : List ℝ) = 3 / 2 := by
    norm_num [listMean]
  have hflat : listPopStd [0, 2, 1, 3] = Real.sqrt (5 / 4) := by
    simp only [listPopStd, hM]
    congr 1
    norm_num
  have hmeans : ([[0, 2], [1, 3]] : List (List ℝ)).map listMean = [1, 2] := by
    simp only [List.map_cons, List.map_nil]
    norm_num [listMean]
  have hM12 : listMean ([1, 2] : List ℝ) = 3 / 2 := by
    norm_num [listMean]
  have hstd12 : listPopStd [1, 2] = 1 / 2 := by
    simp only [listPopStd, hM12]
    rw [show (1 / 2 : ℝ) = Real.sqrt ((1 / 2) ^ 2) from (Real.sqrt_sq (by norm_num)).symm]
    congr 1
    norm_num
  have hs54 : Real.sqrt (5 / 4) ≠ 1 / 2 := by
    intro h
    have h2 := congrArg (fun t : ℝ => t ^ 2) h
    simp only [] at h2
    rw [Real.sq_sqrt (by norm_num : (0 : ℝ) ≤ 5 / 4)] at h2
    norm_num at h2
  constructor
  · show listPopStd ([[0, 2], [1, 3]] : List (List ℝ)).flatten ≠
      listPopStd (([[0, 2], [1, 3]] : List (List ℝ)).map listMean)
    rw [hjoin, hflat, hmeans, hstd12]
    exact hs54
  · show (0 : ℝ) ≠
      listPopStd (([[0, 2], [1, 3]] : List (List ℝ)).map listMean) /
        Real.sqrt (([[0, 2], [1, 3]] : List (List ℝ)).length)
    rw [hmeans, hstd12]
    have hpos : 0 < (1 / 2 : ℝ) / Real.sqrt 2 := by
      apply div_pos (by norm_num)
      exact Real.sqrt_pos.mpr (by norm_num)
    intro h
    rw [show ((([[0, 2], [1, 3]] : List (List ℝ)).length : ℝ)) = 2 by norm_num] at h
    exact hpos.ne' h.symm

/-- Python `cname.replace("C", "H")` for the one-character pattern: every
occurrence of `'C'` is replaced by `'H'`, not only the leading letter. -/
def pyReplaceC (s : List Char) : List Char :=
  s.map (fun ch => if ch = 'C' then 'H' else ch)

/-- `H_name = atom.name.replace("C", "H") + str(i+1)` with 0-based loop index
`i`; the same expression appears in `build_all_Hs_calc_OP` and in
`fast_build_all_Hs_calc_OP`. -/
def H_name (cname : List Char) (i : ℕ) : List Char :=
  pyReplaceC cname ++ Nat.toDigits 10 (i + 1)

/-- Modelled from the spec's naming sentence, as the comparison target of
claim C6: replace only the leading carbon-symbol letter with the hydrogen
symbol, then append the 1-based index. -/
def spec_H_name (cname : List Char) (i : ℕ) : List Char :=
  match cname with
  | [] => Nat.toDigits 10 (i + 1)
  | _ :: rest => 'H' :: rest ++ Nat.toDigits 10 (i + 1)

theorem pyReplaceC_id : ∀ l : List Char, 'C' ∉ l → pyReplaceC l = l := by
  intro l
  induction l with
  | nil => intro _; rfl
  | cons a t ih =>
    intro h
    have ha : ¬a = 'C' := by
      rintro rfl
      exact h (List.mem_cons_self _ t)
    show (if a = 'C' then 'H' else a) :: pyReplaceC t = a :: t
    rw [if_neg ha, ih (fun hm => h (List.mem_cons_of_mem a hm))]

/-- CLAIM C6 (amended) — the hydrogen name is obtained by replacing *every*
occurrence of `'C'` in the carbon name by `'H'` and appending the 1-based
index; this coincides with the claimed replace-the-leading-letter rule exactly
when `'C'` occurs only as the head character (as in `C18 → H181, H182, H183`). -/
theorem H_name_leading (cname : List Char) (i : ℕ)
    (hhead : cname.head? = some 'C') (htail : 'C' ∉ cname.tail) :
    H_name cname i = spec_H_name cname i := by
  cases cname with
  | nil => simp at hhead
  | cons c rest =>
    have hc : c = 'C' := by simpa using hhead
    subst hc
    have hrep : pyReplaceC ('C' :: rest) = 'H' :: rest := by
      show (if 'C' = 'C' then 'H' else 'C') :: pyReplaceC rest = 'H' :: rest
      rw [if_pos rfl, pyReplaceC_id rest (by simpa using htail)]
    show pyReplaceC ('C' :: rest) ++ Nat.toDigits 10 (i + 1) = _
    rw [hrep]
    rfl

/-- Witness for C6 (amended) at the claim's example carbon name `C18`. -/
theorem H_name_leading_witness :
    ((['C', '1', '8'] : List Char).head? = some 'C') ∧
    ('C' ∉ (['C', '1', '8'] : List Char).tail) ∧
    H_name ['C', '1', '8'] 0 = spec_H_name ['C', '1', '8'] 0 :=
  ⟨rfl, by decide, H_name_leading ['C', '1', '8'] 0 rfl (by decide)⟩

/-- Counterexample for CLAIM C6 — for a carbon name containing a second `'C'`
(`"CC1"`), the code produces `"HH11"` (it replaces every `'C'`), while the
claimed leading-letter rule would give `"HC11"`. -/
theorem H_name_counterexample :
    H_name ['C', 'C', '1'] 0 ≠ spec_H_name ['C', 'C', '1'] 0 ∧
    H_name ['C', 'C', '1'] 0 = ['H', 'H', '1', '1'] ∧
    spec_H_name ['C', 'C', '1'] 0 = ['H', 'C', '1', '1'] := by
  refine ⟨by decide, by decide, by decide⟩

end BuildH
